/-
Verification of the nbpull NetBox client core against its design notes.

This file shallowly embeds the core of `src/netbox_data_puller`:
  * `NetBoxClient.get` (client.py): the offset-pagination fetch loop with an
    optional result cap, modelled with explicit fuel and an abstract server
    oracle, instrumented to record the trace of issued HTTP requests;
  * `NetBoxClient.probe` (client.py): the connectivity prober;
  * `print_batch_summary` / `_prefix_len` (formatters.py): the batch
    exact/approximate match row computation;
  * the `Prefix` pydantic model (models/prefix.py) with its
    `extra="allow"` open-schema decode/serialize semantics.
-/

import Mathlib

set_option maxHeartbeats 1000000

namespace Nbpull

/-! ## HTTP data model -/

/-- HTTP methods.  The client under verification only ever constructs
`GET` requests; the other constructors exist so that the read-only
invariant is a non-trivial statement. -/
inductive Method where
  | GET
  | POST
  | PUT
  | PATCH
  | DELETE
deriving DecidableEq, Repr

/-- A query-parameter value: NetBox filter values are strings, the
pagination parameters `limit` / `offset` are numbers. -/
inductive PVal where
  | s (v : String)
  | n (v : Nat)
deriving DecidableEq, Repr

/-- A Python `dict[str, ...]` of query parameters, as an insertion-ordered
association list with unique keys maintained by `dictSet`. -/
abbrev Dict := List (String × PVal)

/-- `d[k] = v` on a Python dict: replace the value in place if the key is
present, otherwise append the new binding at the end. -/
def dictSet (d : Dict) (k : String) (v : PVal) : Dict :=
  if d.any (fun kv => kv.1 = k) then
    d.map (fun kv => if kv.1 = k then (k, v) else kv)
  else
    d ++ [(k, v)]

/-- Key lookup in a query dict (leftmost binding). -/
def dictGet? (d : Dict) (k : String) : Option PVal :=
  (d.find? (fun kv => kv.1 = k)).map (fun kv => kv.2)

/-- Read a numeric query parameter; `0` when absent or non-numeric
(the fetch loop only ever reads `"offset"`, which it itself set to a
number, so the default is never exercised from `NetBoxClient.get`). -/
def dictGetNat (d : Dict) (k : String) : Nat :=
  match dictGet? d k with
  | some (PVal.n v) => v
  | _ => 0

/-- One HTTP request as issued by `httpx.AsyncClient`: method, endpoint
path and query parameters. -/
structure Request where
  method : Method
  endpoint : String
  params : Dict
deriving DecidableEq, Repr

/-- The part of one NetBox API page response consumed by the fetch loop:
the `results` array and whether the `next` field is present (non-null). -/
structure PageResp (α : Type) where
  results : List α
  next : Bool
deriving DecidableEq, Repr

/-- An abstract server: maps a request to a page response, or to a
transport failure (non-2xx status surfaced by `raise_for_status`, or an
undecodable body). -/
abbrev Server (α : Type) := Request → Except Unit (PageResp α)

/-! ## The pagination loop (`NetBoxClient.get`, client.py lines 43-96) -/

/-- The body of the `while True` loop of `NetBoxClient.get`, with explicit
fuel (`none` = the loop did not terminate within the given fuel).  Returns
the outcome (the accumulated record list, or the propagated transport
error) together with the trace of requests issued, in order.

Mirrors client.py lines 73-89: issue a GET with the current query dict;
propagate a failure immediately; extend `results` with the page's
`results`; if a cap is set and reached, truncate to the cap and stop;
if the page has no `next`, stop; otherwise bump `query["offset"]` by the
page size and continue. -/
def getAux {α : Type} (server : Server α) (endpoint : String) (pageSize : Nat)
    (maxResults : Option Nat) :
    Nat → Dict → List α → Option (Except Unit (List α) × List Request)
  | 0, _, _ => none
  | fuel + 1, query, results =>
    let req : Request := ⟨Method.GET, endpoint, query⟩
    match server req with
    | Except.error e => some (Except.error e, [req])
    | Except.ok page =>
      let acc := results ++ page.results
      match maxResults with
      | some cap =>
        if cap ≤ acc.length then
          some (Except.ok (acc.take cap), [req])
        else if page.next then
          (getAux server endpoint pageSize maxResults fuel
              (dictSet query "offset" (PVal.n (dictGetNat query "offset" + pageSize)))
              acc).map (fun rt => (rt.1, req :: rt.2))
        else
          some (Except.ok acc, [req])
      | none =>
        if page.next then
          (getAux server endpoint pageSize maxResults fuel
              (dictSet query "offset" (PVal.n (dictGetNat query "offset" + pageSize)))
              acc).map (fun rt => (rt.1, req :: rt.2))
        else
          some (Except.ok acc, [req])

/-- Effective page size of a fetch (client.py lines 66-70):
`min(self._page_size, max_results)` when a cap is given, else the
configured page size. -/
def effPageSize (pageSizeCfg : Nat) (maxResults : Option Nat) : Nat :=
  match maxResults with
  | some c => min pageSizeCfg c
  | none => pageSizeCfg

/-- `NetBoxClient.get`: build the initial query
`{**(params or {}), "limit": page_size, "offset": 0}` and run the
pagination loop.  `fuel` bounds the number of iterations; `none` means
the loop would still be running after `fuel` page requests. -/
def NetBoxClient.get {α : Type} (pageSizeCfg : Nat) (server : Server α)
    (endpoint : String) (params : Dict) (maxResults : Option Nat) (fuel : Nat) :
    Option (Except Unit (List α) × List Request) :=
  getAux server endpoint (effPageSize pageSizeCfg maxResults) maxResults fuel
    (dictSet (dictSet params "limit" (PVal.n (effPageSize pageSizeCfg maxResults)))
      "offset" (PVal.n 0)) []

/-- `NetBoxClient.get_single` (client.py lines 98-118): one GET request,
its response (some opaque decoded body `β`, or a transport error)
returned as-is, together with the issued request. -/
def NetBoxClient.get_single {β : Type} (oracle : Request → Except Unit β)
    (endpoint : String) (params : Dict) : Except Unit β × Request :=
  let req : Request := ⟨Method.GET, endpoint, params⟩
  (oracle req, req)

/-! ## Concrete servers used to settle the claims -/

/-- A server backing an offset-paginated dataset `ds`: replies to a
request with records `ds[offset : offset+limit]` and reports a `next`
page exactly when `offset + limit < len(ds)` (standard DRF-style limit /
offset pagination). -/
def datasetServer {α : Type} (ds : List α) : Server α := fun req =>
  Except.ok
    { results := (ds.drop (dictGetNat req.params "offset")).take (dictGetNat req.params "limit")
      next := decide (dictGetNat req.params "offset" + dictGetNat req.params "limit" < ds.length) }

/-- A server described by an arbitrary page table keyed by the raw
`offset` query parameter: request at offset `o` gets page `pagesAt o`.
Always succeeds. -/
def offServer {α : Type} (pagesAt : Nat → PageResp α) : Server α := fun req =>
  Except.ok (pagesAt (dictGetNat req.params "offset"))

/-- A server on which every request fails (e.g. every response is a
non-2xx status). -/
def failServer : Server Nat := fun _ => Except.error ()

/-! ## Dict lemmas -/

theorem find?_map_set_self (d : Dict) (k : String) (v : PVal) :
    (d.map (fun kv => if kv.1 = k then (k, v) else kv)).find? (fun kv => kv.1 = k) =
      if d.any (fun kv => kv.1 = k) then some (k, v) else none := by
  induction d with
  | nil => rfl
  | cons hd tl ih =>
    by_cases hk : hd.1 = k
    · rw [List.map_cons, if_pos hk, List.find?_cons_of_pos _ (by simp), List.any_cons]
      simp [hk]
    · rw [List.map_cons, if_neg hk, List.find?_cons_of_neg _ (by simp [hk]),
        List.any_cons, ih, decide_eq_false hk, Bool.false_or]

theorem find?_map_set_ne (d : Dict) (k k' : String) (v : PVal) (h : k' ≠ k) :
    (d.map (fun kv => if kv.1 = k then (k, v) else kv)).find? (fun kv => kv.1 = k') =
      d.find? (fun kv => kv.1 = k') := by
  induction d with
  | nil => rfl
  | cons hd tl ih =>
    by_cases hk : hd.1 = k
    · have h1 : ¬ ((k, v).1 = k') := fun he => h he.symm
      have h2 : ¬ (hd.1 = k') := by rw [hk]; exact fun he => h he.symm
      rw [List.map_cons, if_pos hk, List.find?_cons_of_neg _ (by simpa using h1),
        List.find?_cons_of_neg _ (by simpa using h2), ih]
    · rw [List.map_cons, if_neg hk]
      by_cases hk' : hd.1 = k'
      · rw [List.find?_cons_of_pos _ (by simpa using hk'),
          List.find?_cons_of_pos _ (by simpa using hk')]
      · rw [List.find?_cons_of_neg _ (by simpa using hk'),
          List.find?_cons_of_neg _ (by simpa using hk'), ih]

theorem dictGet?_set_self (d : Dict) (k : String) (v : PVal) :
    dictGet? (dictSet d k v) k = some v := by
  unfold dictSet dictGet?
  by_cases h : d.any (fun kv => kv.1 = k)
  · rw [if_pos h, find?_map_set_self, if_pos h]
    rfl
  · rw [if_neg h]
    have hfind : d.find? (fun kv => decide (kv.1 = k)) = none := by
      rw [List.find?_eq_none]
      intro x hx hpx
      exact h (List.any_eq_true.mpr ⟨x, hx, hpx⟩)
    rw [List.find?_append, hfind]
    simp

theorem dictGet?_set_ne (d : Dict) (k k' : String) (v : PVal) (h : k' ≠ k) :
    dictGet? (dictSet d k v) k' = dictGet? d k' := by
  unfold dictSet dictGet?
  by_cases hany : d.any (fun kv => kv.1 = k)
  · rw [if_pos hany, find?_map_set_ne d k k' v h]
  · rw [if_neg hany, List.find?_append]
    have hlast : List.find? (fun kv => decide (kv.1 = k')) [(k, v)] = none := by
      have : ¬ ((k, v).1 = k') := fun he => h he.symm
      simp [this]
    rw [hlast]
    cases d.find? (fun kv => decide (kv.1 = k')) <;> rfl

theorem dictGetNat_set_self (d : Dict) (k : String) (n : Nat) :
    dictGetNat (dictSet d k (PVal.n n)) k = n := by
  unfold dictGetNat
  rw [dictGet?_set_self]

/-! ## Generic facts about the pagination loop -/

/-- Every request in the trace of the loop is a `GET` on the fetched
endpoint, and its query dict satisfies any property `P` that holds of
the initial query dict and is preserved by the offset bump. -/
theorem getAux_trace_inv {α : Type} (server : Server α) (ep : String) (pageSize : Nat)
    (maxResults : Option Nat) (P : Dict → Prop)
    (hP : ∀ q, P q → P (dictSet q "offset" (PVal.n (dictGetNat q "offset" + pageSize)))) :
    ∀ fuel query acc res t, P query →
      getAux server ep pageSize maxResults fuel query acc = some (res, t) →
      ∀ r ∈ t, r.method = Method.GET ∧ r.endpoint = ep ∧ P r.params := by
  intro fuel
  induction fuel with
  | zero =>
    intro query acc res t _ heq
    simp [getAux] at heq
  | succ n ih =>
    intro query acc res t hPq heq
    simp only [getAux] at heq
    split at heq
    · -- server failed: t = [req]
      rw [Option.some.injEq, Prod.mk.injEq] at heq
      obtain ⟨-, ht⟩ := heq
      subst ht
      intro r hr
      rw [List.mem_singleton] at hr
      subst hr
      exact ⟨rfl, rfl, hPq⟩
    · -- server ok: analyse the cap / next tests
      split at heq
      · -- a cap is set
        split at heq
        · rw [Option.some.injEq, Prod.mk.injEq] at heq
          obtain ⟨-, ht⟩ := heq
          subst ht
          intro r hr
          rw [List.mem_singleton] at hr
          subst hr
          exact ⟨rfl, rfl, hPq⟩
        · split at heq
          · rw [Option.map_eq_some'] at heq
            obtain ⟨⟨res', t'⟩, hrec, hpair⟩ := heq
            rw [Prod.mk.injEq] at hpair
            obtain ⟨-, ht⟩ := hpair
            subst ht
            intro r hr
            rw [List.mem_cons] at hr
            rcases hr with hr | hr
            · subst hr
              exact ⟨rfl, rfl, hPq⟩
            · exact ih _ _ _ _ (hP _ hPq) hrec r hr
          · rw [Option.some.injEq, Prod.mk.injEq] at heq
            obtain ⟨-, ht⟩ := heq
            subst ht
            intro r hr
            rw [List.mem_singleton] at hr
            subst hr
            exact ⟨rfl, rfl, hPq⟩
      · -- no cap
        split at heq
        · rw [Option.map_eq_some'] at heq
          obtain ⟨⟨res', t'⟩, hrec, hpair⟩ := heq
          rw [Prod.mk.injEq] at hpair
          obtain ⟨-, ht⟩ := hpair
          subst ht
          intro r hr
          rw [List.mem_cons] at hr
          rcases hr with hr | hr
          · subst hr
            exact ⟨rfl, rfl, hPq⟩
          · exact ih _ _ _ _ (hP _ hPq) hrec r hr
        · rw [Option.some.injEq, Prod.mk.injEq] at heq
          obtain ⟨-, ht⟩ := heq
          subst ht
          intro r hr
          rw [List.mem_singleton] at hr
          subst hr
          exact ⟨rfl, rfl, hPq⟩

/-- The query-dict invariant maintained by the pagination loop:
`limit` is pinned to the effective page size, `offset` is some number
set by the loop, and every other key holds the caller's value. -/
def QueryInv (params : Dict) (pageSize : Nat) (q : Dict) : Prop :=
  dictGet? q "limit" = some (PVal.n pageSize) ∧
  (∃ v, dictGet? q "offset" = some (PVal.n v)) ∧
  ∀ k, k ≠ "limit" → k ≠ "offset" → dictGet? q k = dictGet? params k

theorem queryInv_init (params : Dict) (pageSize : Nat) :
    QueryInv params pageSize
      (dictSet (dictSet params "limit" (PVal.n pageSize)) "offset" (PVal.n 0)) := by
  refine ⟨?_, ⟨0, dictGet?_set_self _ _ _⟩, ?_⟩
  · rw [dictGet?_set_ne _ _ _ _ (by decide), dictGet?_set_self]
  · intro k hkl hko
    rw [dictGet?_set_ne _ _ _ _ hko, dictGet?_set_ne _ _ _ _ hkl]

theorem queryInv_bump (params : Dict) (pageSize : Nat) (q : Dict)
    (h : QueryInv params pageSize q) :
    QueryInv params pageSize
      (dictSet q "offset" (PVal.n (dictGetNat q "offset" + pageSize))) := by
  obtain ⟨hl, _, ho⟩ := h
  refine ⟨?_, ⟨_, dictGet?_set_self _ _ _⟩, ?_⟩
  · rw [dictGet?_set_ne _ _ _ _ (by decide)]
    exact hl
  · intro k hkl hko
    rw [dictGet?_set_ne _ _ _ _ hko]
    exact ho k hkl hko

/-! ## Claim C10: filter pass-through and limit/offset override -/

/-- C10: on every page request of any fetch, the query parameters sent
are exactly the caller's filter dict with `limit` forced to the
effective page size and `offset` set (to a number) by the loop; a
caller-supplied `limit` or `offset` is overridden and never sent, and
every other caller key/value pair is passed through unchanged. -/
theorem get_params_passthrough {α : Type} (pageSizeCfg : Nat) (server : Server α)
    (ep : String) (params : Dict) (maxResults : Option Nat) (fuel : Nat)
    (res : Except Unit (List α)) (t : List Request)
    (h : NetBoxClient.get pageSizeCfg server ep params maxResults fuel = some (res, t)) :
    ∀ r ∈ t,
      dictGet? r.params "limit" = some (PVal.n (effPageSize pageSizeCfg maxResults)) ∧
      (∃ v, dictGet? r.params "offset" = some (PVal.n v)) ∧
      ∀ k, k ≠ "limit" → k ≠ "offset" → dictGet? r.params k = dictGet? params k := by
  intro r hr
  exact (getAux_trace_inv server ep (effPageSize pageSizeCfg maxResults) maxResults
    (QueryInv params (effPageSize pageSizeCfg maxResults))
    (queryInv_bump params _) fuel _ [] res t (queryInv_init params _) h r hr).2.2

/-- Witness for C10: a caller filter dict that itself contains `limit`,
`offset` and an ordinary filter key, fetched (capped at 3, configured
page size 2) against a 5-record dataset. -/
theorem get_params_passthrough_witness :
    NetBoxClient.get 2 (datasetServer [10, 11, 12, 13, 14]) "ipam/prefixes/"
        [("status", PVal.s "active"), ("limit", PVal.n 999), ("offset", PVal.n 7)]
        (some 3) 4 =
      some (Except.ok [10, 11, 12],
        [⟨Method.GET, "ipam/prefixes/",
          [("status", PVal.s "active"), ("limit", PVal.n 2), ("offset", PVal.n 0)]⟩,
         ⟨Method.GET, "ipam/prefixes/",
          [("status", PVal.s "active"), ("limit", PVal.n 2), ("offset", PVal.n 2)]⟩]) ∧
    ∀ r ∈ [(⟨Method.GET, "ipam/prefixes/",
          [("status", PVal.s "active"), ("limit", PVal.n 2), ("offset", PVal.n 0)]⟩ : Request),
         ⟨Method.GET, "ipam/prefixes/",
          [("status", PVal.s "active"), ("limit", PVal.n 2), ("offset", PVal.n 2)]⟩],
      dictGet? r.params "limit" = some (PVal.n (effPageSize 2 (some 3))) ∧
      (∃ v, dictGet? r.params "offset" = some (PVal.n v)) ∧
      ∀ k, k ≠ "limit" → k ≠ "offset" →
        dictGet? r.params k =
          dictGet? [("status", PVal.s "active"), ("limit", PVal.n 999), ("offset", PVal.n 7)] k :=
  ⟨by rfl,
   get_params_passthrough 2 (datasetServer [10, 11, 12, 13, 14]) "ipam/prefixes/"
     [("status", PVal.s "active"), ("limit", PVal.n 999), ("offset", PVal.n 7)]
     (some 3) 4 (Except.ok [10, 11, 12])
     [⟨Method.GET, "ipam/prefixes/",
        [("status", PVal.s "active"), ("limit", PVal.n 2), ("offset", PVal.n 0)]⟩,
      ⟨Method.GET, "ipam/prefixes/",
        [("status", PVal.s "active"), ("limit", PVal.n 2), ("offset", PVal.n 2)]⟩]
     (by rfl)⟩

/-! ## The connectivity prober (`NetBoxClient.probe`, client.py lines 124-170) -/

/-- The outcome of the single GET a probe issues for one endpoint,
as discriminated by the `try/except` ladder in `probe`:
a 2xx response (`raise_for_status` passes), an HTTP error status
(`httpx.HTTPStatusError`, with status code and reason phrase), a
connection failure (`httpx.ConnectError`), a timeout
(`httpx.TimeoutException`), or any other exception (message text). -/
inductive ProbeOutcome where
  | success (code : Nat)
  | httpError (code : Nat) (reason : String)
  | connectError
  | timeout
  | otherError (msg : String)
deriving DecidableEq, Repr

/-- The default probe endpoint list (client.py lines 141-148). -/
def defaultProbeEndpoints : List String :=
  ["status/", "ipam/prefixes/", "ipam/ip-addresses/", "ipam/vlans/", "ipam/vrfs/"]

/-- The one GET a probe issues for an endpoint: no parameters for the
health path `"status/"`, `limit=1` for every other path
(client.py lines 154-157). -/
def probeRequest (ep : String) : Request :=
  ⟨Method.GET, ep, if ep = "status/" then [] else [("limit", PVal.n 1)]⟩

/-- One loop iteration of `probe`: the `(endpoint, ok, detail)` tuple
appended for one endpoint (client.py lines 151-169). -/
def probeOne (oracle : Request → ProbeOutcome) (ep : String) : String × Bool × String :=
  match oracle (probeRequest ep) with
  | ProbeOutcome.success code => (ep, true, toString code ++ " OK")
  | ProbeOutcome.httpError code reason => (ep, false, toString code ++ " " ++ reason)
  | ProbeOutcome.connectError => (ep, false, "Connection refused")
  | ProbeOutcome.timeout => (ep, false, "Timeout")
  | ProbeOutcome.otherError msg => (ep, false, msg)

/-- `NetBoxClient.probe`: iterate over the endpoints (the default list
when `none` is passed), appending one outcome tuple per endpoint; never
raises (every exception was folded into `ProbeOutcome`).  Also returns
the trace of issued requests. -/
def NetBoxClient.probe (oracle : Request → ProbeOutcome)
    (endpoints : Option (List String)) :
    List (String × Bool × String) × List Request :=
  let eps := endpoints.getD defaultProbeEndpoints
  eps.foldl (fun acc ep => (acc.1 ++ [probeOne oracle ep], acc.2 ++ [probeRequest ep]))
    ([], [])

/-- The probe fold is the pair of maps over the endpoint list. -/
theorem probe_eq_map (oracle : Request → ProbeOutcome) (eps : List String) :
    NetBoxClient.probe oracle (some eps) =
      (eps.map (probeOne oracle), eps.map probeRequest) := by
  unfold NetBoxClient.probe
  simp only [Option.getD_some]
  suffices h : ∀ (l : List String) (a : List (String × Bool × String)) (b : List Request),
      l.foldl (fun acc ep => (acc.1 ++ [probeOne oracle ep], acc.2 ++ [probeRequest ep])) (a, b) =
        (a ++ l.map (probeOne oracle), b ++ l.map probeRequest) by
    simpa using h eps [] []
  intro l
  induction l with
  | nil => intro a b; simp
  | cons hd tl ih =>
    intro a b
    simp only [List.foldl_cons, List.map_cons, ih]
    simp

/-! ## Claim C9: the client only issues GET requests -/

/-- C9: every HTTP request issued by any operation of the client —
`NetBoxClient.get`, `NetBoxClient.get_single`, `NetBoxClient.probe` —
is a `GET`.  The embedding's `Method` type has the write verbs
(`POST`/`PUT`/`PATCH`/`DELETE`), and no operation of the client ever
constructs one of them; these three operations are the client's whole
request-issuing surface (client.py exposes nothing else that sends). -/
theorem client_requests_are_get {α β : Type} (pageSizeCfg : Nat) (server : Server α)
    (oracle : Request → Except Unit β) (ep ep' : String) (params params' : Dict)
    (maxResults : Option Nat) (fuel : Nat)
    (res : Except Unit (List α)) (t : List Request)
    (h : NetBoxClient.get pageSizeCfg server ep params maxResults fuel = some (res, t)) :
    (∀ r ∈ t, r.method = Method.GET) ∧
    (NetBoxClient.get_single oracle ep' params').2.method = Method.GET ∧
    (∀ (po : Request → ProbeOutcome) (endpoints : Option (List String)),
      ∀ r ∈ (NetBoxClient.probe po endpoints).2, r.method = Method.GET) := by
  refine ⟨?_, rfl, ?_⟩
  · intro r hr
    exact (getAux_trace_inv server ep (effPageSize pageSizeCfg maxResults) maxResults
      (fun _ => True) (fun _ _ => trivial) fuel _ [] res t trivial h r hr).1
  · intro po endpoints r hr
    have : NetBoxClient.probe po endpoints =
        NetBoxClient.probe po (some (endpoints.getD defaultProbeEndpoints)) := by
      cases endpoints <;> rfl
    rw [this, probe_eq_map] at hr
    simp only [List.mem_map] at hr
    obtain ⟨x, -, hx⟩ := hr
    rw [← hx]
    rfl

/-- Witness for C9: a two-page fetch against a concrete dataset. -/
theorem client_requests_are_get_witness :
    NetBoxClient.get 2 (datasetServer [10, 11, 12]) "ipam/vrfs/" [] none 3 =
      some (Except.ok [10, 11, 12],
        [⟨Method.GET, "ipam/vrfs/", [("limit", PVal.n 2), ("offset", PVal.n 0)]⟩,
         ⟨Method.GET, "ipam/vrfs/", [("limit", PVal.n 2), ("offset", PVal.n 2)]⟩]) ∧
    ((∀ r ∈ [(⟨Method.GET, "ipam/vrfs/", [("limit", PVal.n 2), ("offset", PVal.n 0)]⟩ : Request),
         ⟨Method.GET, "ipam/vrfs/", [("limit", PVal.n 2), ("offset", PVal.n 2)]⟩],
        r.method = Method.GET) ∧
      (NetBoxClient.get_single (fun _ => (Except.ok 0 : Except Unit Nat)) "status/" []).2.method =
        Method.GET ∧
      (∀ (po : Request → ProbeOutcome) (endpoints : Option (List String)),
        ∀ r ∈ (NetBoxClient.probe po endpoints).2, r.method = Method.GET)) :=
  ⟨by rfl,
   client_requests_are_get 2 (datasetServer [10, 11, 12])
     (fun _ => (Except.ok 0 : Except Unit Nat)) "ipam/vrfs/" "status/" [] [] none 3
     (Except.ok [10, 11, 12])
     [⟨Method.GET, "ipam/vrfs/", [("limit", PVal.n 2), ("offset", PVal.n 0)]⟩,
      ⟨Method.GET, "ipam/vrfs/", [("limit", PVal.n 2), ("offset", PVal.n 2)]⟩]
     (by rfl)⟩

/-! ## Claim C5: per-endpoint probing, in order, never raising -/

/-- A probe oracle realising the claim's example: five default
endpoints, of which `"ipam/vlans/"` answers HTTP 403 Forbidden and the
rest answer 200. -/
def oracle403 : Request → ProbeOutcome := fun r =>
  if r.endpoint = "ipam/vlans/" then ProbeOutcome.httpError 403 "Forbidden"
  else ProbeOutcome.success 200

/-- C5: probing a list of endpoints issues exactly one GET per
endpoint (`"status/"` unparametrized, all others with `limit=1`), in
input order; it never raises — each endpoint's outcome, whatever it is,
becomes one `(endpoint, ok, detail)` tuple, `detail = "<code> OK"` on
success; the output has one tuple per input endpoint in input order,
and each tuple depends only on its own endpoint's outcome, so one
endpoint's failure cannot prevent probing the rest. -/
theorem probe_spec (oracle : Request → ProbeOutcome) (eps : List String) :
    (NetBoxClient.probe oracle (some eps)).1.length = eps.length ∧
    (NetBoxClient.probe oracle (some eps)).2 = eps.map probeRequest ∧
    (∀ i : Nat, ((NetBoxClient.probe oracle (some eps)).1)[i]? =
      (eps[i]?).map (probeOne oracle)) ∧
    (∀ ep : String,
      (probeOne oracle ep).1 = ep ∧
      ((probeOne oracle ep).2.1 = true ↔
        ∃ c, oracle (probeRequest ep) = ProbeOutcome.success c) ∧
      (∀ c, oracle (probeRequest ep) = ProbeOutcome.success c →
        (probeOne oracle ep).2.2 = toString c ++ " OK") ∧
      probeRequest ep =
        ⟨Method.GET, ep, if ep = "status/" then [] else [("limit", PVal.n 1)]⟩) := by
  rw [probe_eq_map]
  refine ⟨by simp, rfl, ?_, ?_⟩
  · intro i
    simp
  · intro ep
    refine ⟨?_, ?_, ?_, rfl⟩
    · unfold probeOne
      cases oracle (probeRequest ep) <;> rfl
    · unfold probeOne
      cases h : oracle (probeRequest ep) <;> simp
    · intro c hc
      unfold probeOne
      rw [hc]

/-- Witness for C5, realising the claim's example: five endpoints, one
failing with HTTP 403 — five outcomes, exactly one `false`, its detail
containing "403", probing order preserved. -/
theorem probe_spec_witness :
    (NetBoxClient.probe oracle403 (some defaultProbeEndpoints)).1 =
      [("status/", true, "200 OK"),
       ("ipam/prefixes/", true, "200 OK"),
       ("ipam/ip-addresses/", true, "200 OK"),
       ("ipam/vlans/", false, "403 Forbidden"),
       ("ipam/vrfs/", true, "200 OK")] ∧
    ((NetBoxClient.probe oracle403 (some defaultProbeEndpoints)).1.countP
      (fun o => o.2.1 = false)) = 1 ∧
    ((NetBoxClient.probe oracle403 (some defaultProbeEndpoints)).1.length =
      defaultProbeEndpoints.length ∧
     (NetBoxClient.probe oracle403 (some defaultProbeEndpoints)).2 =
      defaultProbeEndpoints.map probeRequest ∧
     (∀ i : Nat, ((NetBoxClient.probe oracle403 (some defaultProbeEndpoints)).1)[i]? =
       (defaultProbeEndpoints[i]?).map (probeOne oracle403)) ∧
     (∀ ep : String,
       (probeOne oracle403 ep).1 = ep ∧
       ((probeOne oracle403 ep).2.1 = true ↔
         ∃ c, oracle403 (probeRequest ep) = ProbeOutcome.success c) ∧
       (∀ c, oracle403 (probeRequest ep) = ProbeOutcome.success c →
         (probeOne oracle403 ep).2.2 = toString c ++ " OK") ∧
       probeRequest ep =
         ⟨Method.GET, ep, if ep = "status/" then [] else [("limit", PVal.n 1)]⟩)) :=
  ⟨by rfl, by rfl, probe_spec oracle403 defaultProbeEndpoints⟩

/-! ## Claim C1: capped fetch against an offset-paginated dataset -/

/-- Loop invariant for a capped fetch of a paginated dataset: entering
an iteration with `offset = o` and `accumulated = ds.take o`, the loop
returns the first `min (ds.length) c` records, every page request
carries `limit = p`, and no page beyond the first is requested at an
offset past the cap or past the end of the dataset. -/
theorem getAux_dataset {α : Type} (ds : List α) (ep : String) (p c : Nat)
    (hp : 1 ≤ p) :
    ∀ fuel (query : Dict) (o : Nat),
      dictGet? query "limit" = some (PVal.n p) →
      dictGet? query "offset" = some (PVal.n o) →
      (ds.take o).length < c →
      ds.length + 1 ≤ fuel + min o ds.length →
      ∃ t, getAux (datasetServer ds) ep p (some c) fuel query (ds.take o) =
          some (Except.ok (ds.take (min ds.length c)), t) ∧
        (∀ r ∈ t, dictGet? r.params "limit" = some (PVal.n p)) ∧
        (∀ r ∈ t, dictGetNat r.params "offset" = o ∨
          dictGetNat r.params "offset" < min c ds.length) ∧
        (∀ i, (h : i < t.length) →
          dictGetNat (t.get ⟨i, h⟩).params "offset" = o + i * p) := by
  intro fuel
  induction fuel with
  | zero =>
    intro query o hlim hoff hlen hfuel
    exfalso
    have := Nat.min_le_right o ds.length
    omega
  | succ n ih =>
    intro query o hlim hoff hlen hfuel
    have hgo : dictGetNat query "offset" = o := by unfold dictGetNat; rw [hoff]
    have hgl : dictGetNat query "limit" = p := by unfold dictGetNat; rw [hlim]
    have hacc : ds.take o ++ (ds.drop o).take p = ds.take (o + p) :=
      (List.take_add ds o p).symm
    have haccLen : (ds.take (o + p)).length = min (o + p) ds.length :=
      List.length_take _ _
    simp only [getAux, datasetServer, hgo, hgl, hacc]
    by_cases hcap : c ≤ (ds.take (o + p)).length
    · -- cap reached on this page: truncate and stop
      rw [if_pos hcap]
      refine ⟨[⟨Method.GET, ep, query⟩], ?_, ?_, ?_, ?_⟩
      · have h1 : (ds.take (o + p)).take c = ds.take (min c (o + p)) := List.take_take ..
        have h2 : min c (o + p) = c := by omega
        have h3 : min ds.length c = c := by omega
        rw [h1, h2, h3]
      · intro r hr
        rw [List.mem_singleton] at hr
        subst hr
        exact hlim
      · intro r hr
        rw [List.mem_singleton] at hr
        subst hr
        left
        exact hgo
      · intro i h
        rw [List.length_singleton] at h
        interval_cases i
        simpa using hgo
    · rw [if_neg hcap]
      by_cases hnext : o + p < ds.length
      · -- more pages: bump the offset and continue
        rw [if_pos (by simpa using hnext)]
        have hlen' : (ds.take (o + p)).length < c := by omega
        obtain ⟨t', hres, hlimt, hofft, hidx⟩ := ih
          (dictSet query "offset" (PVal.n (o + p)))
          (o + p)
          (by rw [dictGet?_set_ne _ _ _ _ (by decide)]; exact hlim)
          (dictGet?_set_self _ _ _)
          hlen'
          (by
            have h1 : min (o + p) ds.length = o + p := by omega
            have h2 : min o ds.length ≤ o := Nat.min_le_left ..
            omega)
        rw [hres]
        refine ⟨⟨Method.GET, ep, query⟩ :: t', rfl, ?_, ?_, ?_⟩
        · intro r hr
          rw [List.mem_cons] at hr
          rcases hr with hr | hr
          · subst hr; exact hlim
          · exact hlimt r hr
        · intro r hr
          rw [List.mem_cons] at hr
          rcases hr with hr | hr
          · subst hr; left; exact hgo
          · right
            have hop : o + p < min c ds.length := by omega
            rcases hofft r hr with h | h
            · omega
            · exact h
        · intro i h
          cases i with
          | zero => simpa using hgo
          | succ j =>
            have hj : j < t'.length := by
              rw [List.length_cons] at h
              omega
            have hget : ((⟨Method.GET, ep, query⟩ : Request) :: t').get ⟨j + 1, h⟩ =
                t'.get ⟨j, hj⟩ := rfl
            rw [hget, hidx j hj]
            ring
      · -- last page: the server reports no further pages
        rw [if_neg (by simpa using hnext)]
        refine ⟨[⟨Method.GET, ep, query⟩], ?_, ?_, ?_, ?_⟩
        · have h1 : ds.take (o + p) = ds := List.take_of_length_le (by omega)
          have h2 : min ds.length c = ds.length := by omega
          rw [h1, h2, List.take_length]
        · intro r hr
          rw [List.mem_singleton] at hr
          subst hr
          exact hlim
        · intro r hr
          rw [List.mem_singleton] at hr
          subst hr
          left
          exact hgo
        · intro i h
          rw [List.length_singleton] at h
          interval_cases i
          simpa using hgo

/-- C1: for every cap `c ≥ 1` and every dataset of size `N` served as
offset-paginated pages, a capped fetch returns exactly
`min N c` records — the dataset's prefix `ds.take (min N c)`, i.e. in
original server order — every page request uses the effective page size
`min cfg c` as its `limit`, the `k`-th request is at offset `k` times
that page size, and the loop stops early: apart from the mandatory
first page at offset 0, it never requests a page at an offset at or
beyond the cap (or beyond the end of the dataset), so it stops as soon
as the accumulated count reaches `c`. -/
theorem fetch_capped {α : Type} (ds : List α) (cfg c : Nat) (ep : String) (params : Dict)
    (hc : 1 ≤ c) (hcfg : 1 ≤ cfg) (fuel : Nat) (hfuel : ds.length + 1 ≤ fuel) :
    ∃ t, NetBoxClient.get cfg (datasetServer ds) ep params (some c) fuel =
        some (Except.ok (ds.take (min ds.length c)), t) ∧
      (ds.take (min ds.length c)).length = min ds.length c ∧
      (∀ r ∈ t, dictGet? r.params "limit" = some (PVal.n (min cfg c))) ∧
      (∀ r ∈ t, dictGetNat r.params "offset" = 0 ∨
        dictGetNat r.params "offset" < min c ds.length) ∧
      (∀ i, (h : i < t.length) →
        dictGetNat (t.get ⟨i, h⟩).params "offset" = i * min cfg c) := by
  have hp : 1 ≤ min cfg c := Nat.le_min.mpr ⟨hcfg, hc⟩
  have heff : effPageSize cfg (some c) = min cfg c := rfl
  obtain ⟨t, hres, hlim, hoff, hidx⟩ := getAux_dataset ds ep (min cfg c) c hp fuel
    (dictSet (dictSet params "limit" (PVal.n (min cfg c))) "offset" (PVal.n 0)) 0
    (by rw [dictGet?_set_ne _ _ _ _ (by decide), dictGet?_set_self])
    (dictGet?_set_self _ _ _)
    (by simpa using hc)
    (by simpa using hfuel)
  refine ⟨t, ?_, ?_, hlim, hoff, ?_⟩
  · unfold NetBoxClient.get
    rw [heff, ← List.take_zero (l := ds)]
    exact hres
  · rw [List.length_take]
    omega
  · intro i h
    simpa using hidx i h

/-- Witness for C1: dataset of 5 records, configured page size 2,
cap 3 — the fetch returns the first 3 records over two page requests. -/
theorem fetch_capped_witness :
    1 ≤ 3 ∧ 1 ≤ 2 ∧ [10, 11, 12, 13, 14].length + 1 ≤ 6 ∧
    ∃ t, NetBoxClient.get 2 (datasetServer [10, 11, 12, 13, 14]) "ipam/prefixes/" []
        (some 3) 6 =
        some (Except.ok ([10, 11, 12, 13, 14].take (min [10, 11, 12, 13, 14].length 3)), t) ∧
      ([10, 11, 12, 13, 14].take (min [10, 11, 12, 13, 14].length 3)).length =
        min [10, 11, 12, 13, 14].length 3 ∧
      (∀ r ∈ t, dictGet? r.params "limit" = some (PVal.n (min 2 3))) ∧
      (∀ r ∈ t, dictGetNat r.params "offset" = 0 ∨
        dictGetNat r.params "offset" < min 3 [10, 11, 12, 13, 14].length) ∧
      (∀ i, (h : i < t.length) →
        dictGetNat (t.get ⟨i, h⟩).params "offset" = i * min 2 3) :=
  ⟨by decide, by decide, by decide,
   fetch_capped [10, 11, 12, 13, 14] 2 3 "ipam/prefixes/" [] (by decide) (by decide) 6
     (by decide)⟩

/-! ## Claim C2: uncapped fetch — concatenation, termination, offsets -/

/-- Loop invariant for an uncapped fetch: from a query whose offset is
`o`, if the pages at offsets `o, o+cfg, …, o+n*cfg` signal "next"
until the `n`-th, which does not, the loop appends exactly those pages'
records in page order and requests exactly the offsets `o + i*cfg`. -/
theorem getAux_offserver {α : Type} (pagesAt : Nat → PageResp α) (ep : String) (cfg : Nat) :
    ∀ n : Nat, ∀ fuel (query : Dict) (o : Nat) (acc : List α),
      dictGet? query "offset" = some (PVal.n o) →
      (∀ k < n, (pagesAt (o + k * cfg)).next = true) →
      (pagesAt (o + n * cfg)).next = false →
      n + 1 ≤ fuel →
      ∃ t, getAux (offServer pagesAt) ep cfg none fuel query acc =
          some (Except.ok (acc ++ ((List.range (n + 1)).map
            (fun k => (pagesAt (o + k * cfg)).results)).flatten), t) ∧
        t.length = n + 1 ∧
        ∀ i, (h : i < t.length) →
          dictGetNat (t.get ⟨i, h⟩).params "offset" = o + i * cfg := by
  intro n
  induction n with
  | zero =>
    intro fuel query o acc hoff hnexts hlast hfuel
    cases fuel with
    | zero => omega
    | succ f =>
      have hgo : dictGetNat query "offset" = o := by unfold dictGetNat; rw [hoff]
      have hlast' : (pagesAt o).next = false := by simpa using hlast
      simp only [getAux, offServer, hgo, hlast', if_neg]
      refine ⟨[⟨Method.GET, ep, query⟩], ?_, rfl, ?_⟩
      · rw [List.range_succ]
        simp
      · intro i h
        rw [List.length_singleton] at h
        interval_cases i
        simpa using hgo
  | succ n ih =>
    intro fuel query o acc hoff hnexts hlast hfuel
    cases fuel with
    | zero => omega
    | succ f =>
      have hgo : dictGetNat query "offset" = o := by unfold dictGetNat; rw [hoff]
      have h0 : (pagesAt o).next = true := by simpa using hnexts 0 (by omega)
      obtain ⟨t', hres, hlen, hofft⟩ := ih f
        (dictSet query "offset" (PVal.n (o + cfg)))
        (o + cfg)
        (acc ++ (pagesAt o).results)
        (dictGet?_set_self _ _ _)
        (by
          intro k hk
          have he : o + cfg + k * cfg = o + (k + 1) * cfg := by ring
          rw [he]
          exact hnexts (k + 1) (by omega))
        (by
          have he : o + cfg + n * cfg = o + (n + 1) * cfg := by ring
          rw [he]
          exact hlast)
        (by omega)
      simp only [getAux, offServer, hgo, h0, if_pos, hres, Option.map_some']
      refine ⟨⟨Method.GET, ep, query⟩ :: t', ?_, by simp [hlen], ?_⟩
      · have hsplit : ((List.range (n + 1 + 1)).map
            (fun k => (pagesAt (o + k * cfg)).results)).flatten =
            (pagesAt o).results ++ ((List.range (n + 1)).map
              (fun k => (pagesAt (o + cfg + k * cfg)).results)).flatten := by
          rw [List.range_succ_eq_map]
          simp only [List.map_cons, List.flatten_cons, List.map_map]
          congr 1
          · simp
          · congr 1
            apply List.map_congr_left
            intro k _
            have he : o + cfg + k * cfg = o + (k + 1) * cfg := by ring
            simp [Function.comp, he, Nat.succ_eq_add_one]
        rw [hsplit, ← List.append_assoc]
      · intro i h
        cases i with
        | zero => simpa using hgo
        | succ j =>
          have hj : j < t'.length := by
            rw [List.length_cons] at h
            omega
          have : ((⟨Method.GET, ep, query⟩ : Request) :: t').get ⟨j + 1, h⟩ =
              t'.get ⟨j, hj⟩ := rfl
          rw [this, hofft j hj]
          ring

/-- Loop invariant for divergence: if every page at offsets
`o, o+cfg, o+2*cfg, …` keeps signalling a next page, the uncapped loop
never terminates (exhausts any amount of fuel). -/
theorem getAux_offserver_diverges {α : Type} (pagesAt : Nat → PageResp α)
    (ep : String) (cfg : Nat) :
    ∀ fuel (query : Dict) (o : Nat) (acc : List α),
      dictGet? query "offset" = some (PVal.n o) →
      (∀ k, (pagesAt (o + k * cfg)).next = true) →
      getAux (offServer pagesAt) ep cfg none fuel query acc = none := by
  intro fuel
  induction fuel with
  | zero => intro query o acc _ _; rfl
  | succ f ih =>
    intro query o acc hoff hnexts
    have hgo : dictGetNat query "offset" = o := by unfold dictGetNat; rw [hoff]
    have h0 : (pagesAt o).next = true := by simpa using hnexts 0
    simp only [getAux, offServer, hgo, h0, if_pos]
    rw [ih (dictSet query "offset" (PVal.n (o + cfg))) (o + cfg)
      (acc ++ (pagesAt o).results) (dictGet?_set_self _ _ _)
      (by
        intro k
        have he : o + cfg + k * cfg = o + (k + 1) * cfg := by ring
        rw [he]
        exact hnexts (k + 1))]
    rfl

/-- C2: an uncapped fetch returns the concatenation, in page order, of
the records of every page the server serves, and the pagination loop
terminates if and only if the server eventually returns a page whose
`next` field is absent; the offset sent for page `k` is `k` times the
effective page size (which, with no cap, is the configured page size,
not derived from any cap). -/
theorem fetch_uncapped {α : Type} (pagesAt : Nat → PageResp α) (cfg : Nat)
    (ep : String) (params : Dict) :
    (∀ n fuel, (∀ k < n, (pagesAt (k * cfg)).next = true) →
      (pagesAt (n * cfg)).next = false → n + 1 ≤ fuel →
      ∃ t, NetBoxClient.get cfg (offServer pagesAt) ep params none fuel =
          some (Except.ok (((List.range (n + 1)).map
            (fun k => (pagesAt (k * cfg)).results)).flatten), t) ∧
        t.length = n + 1 ∧
        ∀ i, (h : i < t.length) →
          dictGetNat (t.get ⟨i, h⟩).params "offset" = i * cfg) ∧
    ((∀ k, (pagesAt (k * cfg)).next = true) →
      ∀ fuel, NetBoxClient.get cfg (offServer pagesAt) ep params none fuel = none) := by
  constructor
  · intro n fuel hnexts hlast hfuel
    obtain ⟨t, hres, hlen, hofft⟩ := getAux_offserver pagesAt ep cfg n fuel
      (dictSet (dictSet params "limit" (PVal.n cfg)) "offset" (PVal.n 0)) 0 []
      (dictGet?_set_self _ _ _)
      (by intro k hk; simpa using hnexts k hk)
      (by simpa using hlast)
      hfuel
    refine ⟨t, ?_, hlen, ?_⟩
    · unfold NetBoxClient.get
      rw [show effPageSize cfg none = cfg from rfl, hres]
      simp
    · intro i h
      simpa using hofft i h
  · intro hnexts fuel
    exact getAux_offserver_diverges pagesAt ep cfg fuel
      (dictSet (dictSet params "limit" (PVal.n cfg)) "offset" (PVal.n 0)) 0 []
      (dictGet?_set_self _ _ _)
      (by intro k; simpa using hnexts k)

/-- A concrete two-page server for the C2 witness: the page at offset 0
holds `[1, 2]` and signals a next page, every other offset holds `[3]`
and is final. -/
def pagesTwo : Nat → PageResp Nat := fun o =>
  if o = 0 then ⟨[1, 2], true⟩ else ⟨[3], false⟩

/-- Witness for C2: page size 2, two pages — the fetch returns
`[1, 2] ++ [3]` with requests at offsets 0 and 2. -/
theorem fetch_uncapped_witness :
    ∃ t, NetBoxClient.get 2 (offServer pagesTwo) "ipam/prefixes/" [] none 2 =
        some (Except.ok (((List.range 2).map
          (fun k => (pagesTwo (k * 2)).results)).flatten), t) ∧
      t.length = 2 ∧
      ∀ i, (h : i < t.length) →
        dictGetNat (t.get ⟨i, h⟩).params "offset" = i * 2 :=
  (fetch_uncapped pagesTwo 2 "ipam/prefixes/" []).1 1 2
    (by intro k hk; interval_cases k; rfl) (by rfl) (by omega)

/-! ## Claim C7: a failing page request aborts the whole fetch -/

/-- Loop invariant relating the outcome of the fetch to the server's
answers along the trace: on success every traced request succeeded; on
failure the trace is a block of successful requests followed by exactly
one final failing request. -/
theorem getAux_error_inv {α : Type} (server : Server α) (ep : String) (pageSize : Nat)
    (maxResults : Option Nat) :
    ∀ fuel query acc res t,
      getAux server ep pageSize maxResults fuel query acc = some (res, t) →
      (∀ l, res = Except.ok l → ∀ r ∈ t, ∃ p, server r = Except.ok p) ∧
      (∀ e, res = Except.error e → ∃ t₀ r, t = t₀ ++ [r] ∧
        server r = Except.error e ∧ ∀ r' ∈ t₀, ∃ p, server r' = Except.ok p) := by
  intro fuel
  induction fuel with
  | zero =>
    intro query acc res t heq
    simp [getAux] at heq
  | succ n ih =>
    intro query acc res t heq
    simp only [getAux] at heq
    split at heq
    · -- the request for this page failed
      rename_i e' hsrv
      rw [Option.some.injEq, Prod.mk.injEq] at heq
      obtain ⟨hres, ht⟩ := heq
      subst hres
      subst ht
      constructor
      · intro l hl
        exact absurd hl (by simp)
      · intro e he
        rw [Except.error.injEq] at he
        subst he
        exact ⟨[], _, rfl, hsrv, by simp⟩
    · -- this page succeeded
      rename_i page hsrv
      have hstop : ∀ v, some (Except.ok v, [(⟨Method.GET, ep, query⟩ : Request)]) =
          some (res, t) →
          (∀ l, res = Except.ok l → ∀ r ∈ t, ∃ p, server r = Except.ok p) ∧
          (∀ e, res = Except.error e → ∃ t₀ r, t = t₀ ++ [r] ∧
            server r = Except.error e ∧ ∀ r' ∈ t₀, ∃ p, server r' = Except.ok p) := by
        intro v hv
        rw [Option.some.injEq, Prod.mk.injEq] at hv
        obtain ⟨hres, ht⟩ := hv
        subst hres
        subst ht
        constructor
        · intro l hl r hr
          rw [List.mem_singleton] at hr
          subst hr
          exact ⟨page, hsrv⟩
        · intro e he
          exact absurd he (by simp)
      have hstep : ∀ q' a',
          (getAux server ep pageSize maxResults n q' a').map
            (fun rt => (rt.1, (⟨Method.GET, ep, query⟩ : Request) :: rt.2)) =
            some (res, t) →
          (∀ l, res = Except.ok l → ∀ r ∈ t, ∃ p, server r = Except.ok p) ∧
          (∀ e, res = Except.error e → ∃ t₀ r, t = t₀ ++ [r] ∧
            server r = Except.error e ∧ ∀ r' ∈ t₀, ∃ p, server r' = Except.ok p) := by
        intro q' a' hmap
        rw [Option.map_eq_some'] at hmap
        obtain ⟨⟨res', t'⟩, hrec, hpair⟩ := hmap
        rw [Prod.mk.injEq] at hpair
        obtain ⟨hres, ht⟩ := hpair
        subst hres
        subst ht
        obtain ⟨ihok, iherr⟩ := ih q' a' res' t' hrec
        constructor
        · intro l hl r hr
          rw [List.mem_cons] at hr
          rcases hr with hr | hr
          · subst hr
            exact ⟨page, hsrv⟩
          · exact ihok l hl r hr
        · intro e he
          obtain ⟨t₀, r, ht', hre, hok⟩ := iherr e he
          refine ⟨⟨Method.GET, ep, query⟩ :: t₀, r, by rw [ht']; rfl, hre, ?_⟩
          intro r' hr'
          rw [List.mem_cons] at hr'
          rcases hr' with hr' | hr'
          · subst hr'
            exact ⟨page, hsrv⟩
          · exact hok r' hr'
      split at heq
      · -- a cap is set
        split at heq
        · exact hstop _ heq
        · split at heq
          · exact hstep _ _ heq
          · exact hstop _ heq
      · -- no cap
        split at heq
        · exact hstep _ _ heq
        · exact hstop _ heq

/-- C7: if any page request of a fetch fails, the whole fetch fails
with that single error and returns no records at all — the result is
the propagated error, not a partial list built from earlier pages —
and the failed page is not retried: the trace is the successful
requests followed by exactly one final failing request, after which no
further request is issued. -/
theorem fetch_fail_aborts {α : Type} (pageSizeCfg : Nat) (server : Server α)
    (ep : String) (params : Dict) (maxResults : Option Nat) (fuel : Nat)
    (res : Except Unit (List α)) (t : List Request)
    (h : NetBoxClient.get pageSizeCfg server ep params maxResults fuel = some (res, t))
    (hfail : ∃ r ∈ t, ∃ e, server r = Except.error e) :
    ∃ e t₀ r, res = Except.error e ∧ t = t₀ ++ [r] ∧
      server r = Except.error e ∧ ∀ r' ∈ t₀, ∃ p, server r' = Except.ok p := by
  obtain ⟨hok, herr⟩ := getAux_error_inv server ep
    (effPageSize pageSizeCfg maxResults) maxResults fuel _ [] res t h
  cases res with
  | ok l =>
    exfalso
    obtain ⟨r, hr, e, he⟩ := hfail
    obtain ⟨p, hp⟩ := hok l rfl r hr
    rw [hp] at he
    exact absurd he (by simp)
  | error e =>
    obtain ⟨t₀, r, ht, hre, hokpre⟩ := herr e rfl
    exact ⟨e, t₀, r, rfl, ht, hre, hokpre⟩

/-- A server whose page at offset 0 succeeds and whose every other page
request fails (e.g. the backend starts answering 500s). -/
def failAfterFirst : Server Nat := fun r =>
  if dictGetNat r.params "offset" = 0 then Except.ok ⟨[1, 2], true⟩
  else Except.error ()

/-- Witness for C7: the second page request fails — the fetch returns
the error, no partial `[1, 2]`, and the failing request is last. -/
theorem fetch_fail_aborts_witness :
    NetBoxClient.get 2 failAfterFirst "ipam/prefixes/" [] none 5 =
      some (Except.error (),
        [⟨Method.GET, "ipam/prefixes/", [("limit", PVal.n 2), ("offset", PVal.n 0)]⟩,
         ⟨Method.GET, "ipam/prefixes/", [("limit", PVal.n 2), ("offset", PVal.n 2)]⟩]) ∧
    ∃ e t₀ r, (Except.error () : Except Unit (List Nat)) = Except.error e ∧
      [(⟨Method.GET, "ipam/prefixes/", [("limit", PVal.n 2), ("offset", PVal.n 0)]⟩ : Request),
       ⟨Method.GET, "ipam/prefixes/", [("limit", PVal.n 2), ("offset", PVal.n 2)]⟩] =
        t₀ ++ [r] ∧
      failAfterFirst r = Except.error e ∧
      ∀ r' ∈ t₀, ∃ p, failAfterFirst r' = Except.ok p :=
  ⟨by rfl,
   fetch_fail_aborts 2 failAfterFirst "ipam/prefixes/" [] none 5 (Except.error ())
     [⟨Method.GET, "ipam/prefixes/", [("limit", PVal.n 2), ("offset", PVal.n 0)]⟩,
      ⟨Method.GET, "ipam/prefixes/", [("limit", PVal.n 2), ("offset", PVal.n 2)]⟩]
     (by rfl)
     ⟨⟨Method.GET, "ipam/prefixes/", [("limit", PVal.n 2), ("offset", PVal.n 2)]⟩,
      by simp, (), by rfl⟩⟩

/-! ## Claim C8: cap 0 -/

/-- Counterexample to C8 as stated: with a cap of 0 the fetch does
*not* return an empty result set "regardless of what the server
returns" — when the single page request itself fails (here: every
request answers a non-2xx status), the fetch propagates the error
instead of returning an empty result. -/
theorem cap_zero_counterexample :
    NetBoxClient.get 100 failServer "ipam/prefixes/" [] (some 0) 3 =
      some (Except.error (),
        [⟨Method.GET, "ipam/prefixes/", [("limit", PVal.n 0), ("offset", PVal.n 0)]⟩]) := by
  rfl

/-- C8 (amended): for a cap of 0, the fetch issues exactly one page
request, with `limit = 0` (the effective page size `min cfg 0`), and —
provided that single request succeeds — returns an empty result set
regardless of the returned page's content (its records and its `next`
signal are both ignored). -/
theorem cap_zero_empty {α : Type} (cfg : Nat) (server : Server α) (ep : String)
    (params : Dict) (fuel : Nat) (page : PageResp α) (hfuel : 1 ≤ fuel)
    (hsrv : server ⟨Method.GET, ep,
      dictSet (dictSet params "limit" (PVal.n 0)) "offset" (PVal.n 0)⟩ = Except.ok page) :
    NetBoxClient.get cfg server ep params (some 0) fuel =
      some (Except.ok [],
        [⟨Method.GET, ep, dictSet (dictSet params "limit" (PVal.n 0)) "offset" (PVal.n 0)⟩]) := by
  have h0 : effPageSize cfg (some 0) = 0 := by simp [effPageSize]
  cases fuel with
  | zero => omega
  | succ n =>
    unfold NetBoxClient.get
    rw [h0]
    simp only [getAux, hsrv, Nat.zero_le, if_pos, List.take_zero]

/-- Witness for C8's amended theorem: configured page size 2 against a
3-record dataset, cap 0 — one request with limit 0, empty result. -/
theorem cap_zero_empty_witness :
    (1 : Nat) ≤ 1 ∧
    datasetServer [5, 6, 7]
      ⟨Method.GET, "ipam/prefixes/",
        dictSet (dictSet [] "limit" (PVal.n 0)) "offset" (PVal.n 0)⟩ =
      Except.ok ⟨[], true⟩ ∧
    NetBoxClient.get 2 (datasetServer [5, 6, 7]) "ipam/prefixes/" [] (some 0) 1 =
      some (Except.ok [],
        [⟨Method.GET, "ipam/prefixes/",
          dictSet (dictSet [] "limit" (PVal.n 0)) "offset" (PVal.n 0)⟩]) :=
  ⟨by decide, by rfl,
   cap_zero_empty 2 (datasetServer [5, 6, 7]) "ipam/prefixes/" [] 1 ⟨[], true⟩
     (by decide) (by rfl)⟩

/-! ## Record model (models/prefix.py) and batch summary (formatters.py) -/

/-- A JSON value, as carried by raw NetBox payloads. -/
inductive J where
  | null
  | b (v : Bool)
  | num (v : Int)
  | str (v : String)
  | arr (vs : List J)
  | obj (fields : List (String × J))

/-- `NestedRef` of models/prefix.py: nested reference to a related
object (`id` + `display`). -/
structure NestedRef where
  id : Int
  display : String
deriving DecidableEq, Repr

/-- `ChoiceRef` of models/prefix.py: a NetBox v4 choice/enum field
(`value` + `label`). -/
structure ChoiceRef where
  value : String
  label : String
deriving DecidableEq, Repr

/-- The `display` property of `ChoiceRef`: its label (consistent
interface with `NestedRef`). -/
def ChoiceRef.display (c : ChoiceRef) : String := c.label

/-- The `Prefix` pydantic model of models/prefix.py (the name `Prefix`
is written `PrefixRec` and the field `prefix` is written `pfx` because
both clash with Lean keywords): required `id`, `display` and CIDR
string, optional typed fields with their declared defaults, and — per
`extra="allow"` — the side-mapping of unrecognized payload fields kept
verbatim. -/
structure PrefixRec where
  id : Int
  display : String
  pfx : String
  status : Option ChoiceRef := none
  vrf : Option NestedRef := none
  tenant : Option NestedRef := none
  site : Option NestedRef := none
  vlan : Option NestedRef := none
  role : Option NestedRef := none
  is_pool : Bool := false
  mark_utilized : Bool := false
  description : String := ""
  tags : List NestedRef := []
  extra : List (String × J) := []

/-- Python's `str.split(sep)` for a one-character separator, on the
character list of the string. -/
def splitChar (sep : Char) : List Char → List (List Char)
  | [] => [[]]
  | c :: cs =>
    let rest := splitChar sep cs
    if c = sep then [] :: rest
    else
      match rest with
      | [] => [[c]]
      | piece :: more => (c :: piece) :: more

/-- Decimal value of a digit list. -/
def digitsVal (cs : List Char) : Nat :=
  cs.foldl (fun a c => a * 10 + (c.toNat - '0'.toNat)) 0

/-- Python's `int(str)` on a character list: strip surrounding
whitespace, allow one leading sign, then decimal digits; anything else
raises `ValueError`, modelled as `none`.  (Digit-group underscores and
non-ASCII digits, which CPython also accepts, are not modelled; no
prefix string in scope uses them.) -/
def pyIntChars? (cs : List Char) : Option Int :=
  let t := ((cs.dropWhile Char.isWhitespace).reverse.dropWhile Char.isWhitespace).reverse
  match t with
  | [] => none
  | c :: rest =>
    if c = '-' then
      if rest ≠ [] ∧ rest.all Char.isDigit then some (-(digitsVal rest : Int)) else none
    else if c = '+' then
      if rest ≠ [] ∧ rest.all Char.isDigit then some ((digitsVal rest : Int)) else none
    else if t.all Char.isDigit then some ((digitsVal t : Int)) else none

/-- `_prefix_len` (formatters.py lines 198-203): the integer after the
first "/" of the prefix string; `IndexError` (no "/") and `ValueError`
(non-numeric mask) both yield 0. -/
def pfxLen (s : String) : Int :=
  match (splitChar '/' s.data).drop 1 with
  | [] => 0
  | m :: _ => (pyIntChars? m).getD 0

/-- Python's `max(x :: xs, key=key)`: fold keeping the first maximal
element — a later element replaces the current best only when its key
is strictly greater. -/
def pyMax {α : Type} (key : α → Int) (x : α) (xs : List α) : α :=
  xs.foldl (fun best y => if key best < key y then y else best) x

/-- `_display_or_dash` (formatters.py lines 17-23) for an optional
nested reference. -/
def displayOrDash : Option NestedRef → String
  | none => "—"
  | some r => r.display

/-- The label text produced by `_styled_status` (formatters.py lines
31-45); the colour styling is presentation-only and not modelled. -/
def styledStatusLabel : Option ChoiceRef → String
  | none => "—"
  | some c => c.display

/-- `s or "—"` on a Python string: the dash exactly when empty. -/
def orDash (s : String) : String := if s = "" then "—" else s

/-- One row of the batch summary table: queried prefix, matched-prefix
cell text, status label, site, tenant, description
(formatters.py lines 139-181). -/
structure BatchRow where
  queried : String
  matched : String
  status : String
  site : String
  tenant : String
  descr : String

/-- The row added for one exact match (formatters.py lines 151-160). -/
def rowDirect (cidr : String) (r : PrefixRec) : BatchRow :=
  ⟨cidr, r.pfx, styledStatusLabel r.status, displayOrDash r.site,
    displayOrDash r.tenant, orDash r.description⟩

/-- The row added for the closest parent when there is no exact match
(formatters.py lines 161-171); the matched cell reads `≈ <prefix>`. -/
def rowApprox (cidr : String) (r : PrefixRec) : BatchRow :=
  ⟨cidr, "≈ " ++ r.pfx, styledStatusLabel r.status, displayOrDash r.site,
    displayOrDash r.tenant, orDash r.description⟩

/-- The row added for a not-found query key
(formatters.py lines 173-181). -/
def rowNotFound (cidr : String) : BatchRow :=
  ⟨cidr, "—", "Not Found", "—", "—", "—"⟩

/-- The rows `print_batch_summary` adds for one `(cidr, records)` group
(formatters.py lines 146-171): one row per record whose prefix string
equals the queried CIDR; otherwise, if any records remain, a single
`≈` row for the record with the greatest `_prefix_len` (Python `max`,
so first occurrence wins ties); otherwise no row. -/
def batchGroupRows (cidr : String) (records : List PrefixRec) : List BatchRow :=
  let direct := records.filter (fun r => r.pfx = cidr)
  let parents := records.filter (fun r => ¬ (r.pfx = cidr))
  if direct.isEmpty = false then
    direct.map (rowDirect cidr)
  else
    match parents with
    | [] => []
    | p :: ps => [rowApprox cidr (pyMax (fun r => pfxLen r.pfx) p ps)]

/-- All rows of the consolidated batch table (formatters.py lines
146-181): the per-group rows in input order, then one "Not Found" row
per unmatched key. -/
def printBatchSummaryRows (results : List (String × List PrefixRec))
    (notFound : List String) : List BatchRow :=
  (results.map (fun pr => batchGroupRows pr.1 pr.2)).flatten ++
    notFound.map rowNotFound

/-! ## Claims C3 and C4: batch match selection -/

/-- Python `max(x :: xs, key=key)` returns the first element attaining
the maximal key: the list splits as `l1 ++ max :: l2` with every
element of `l1` strictly below the maximum and every element at most
the maximum. -/
theorem pyMax_first_max {α : Type} (key : α → Int) :
    ∀ (xs : List α) (x : α), ∃ l1 l2,
      x :: xs = l1 ++ pyMax key x xs :: l2 ∧
      (∀ a ∈ l1, key a < key (pyMax key x xs)) ∧
      (∀ a ∈ x :: xs, key a ≤ key (pyMax key x xs)) := by
  intro xs
  induction xs with
  | nil =>
    intro x
    refine ⟨[], [], rfl, by simp, ?_⟩
    intro a ha
    rw [List.mem_singleton] at ha
    subst ha
    exact le_refl _
  | cons y ys ih =>
    intro x
    have hstep : pyMax key x (y :: ys) = pyMax key (if key x < key y then y else x) ys :=
      rfl
    by_cases hxy : key x < key y
    · rw [hstep, if_pos hxy]
      obtain ⟨l1, l2, heq, hstrict, hle⟩ := ih y
      refine ⟨x :: l1, l2, ?_, ?_, ?_⟩
      · rw [List.cons_append, ← heq]
      · intro a ha
        rcases List.mem_cons.mp ha with rfl | ha
        · exact lt_of_lt_of_le hxy (hle y (List.mem_cons_self y ys))
        · exact hstrict a ha
      · intro a ha
        rcases List.mem_cons.mp ha with rfl | ha
        · exact le_of_lt (lt_of_lt_of_le hxy (hle y (List.mem_cons_self y ys)))
        · exact hle a ha
    · rw [hstep, if_neg hxy]
      obtain ⟨l1, l2, heq, hstrict, hle⟩ := ih x
      cases l1 with
      | nil =>
        rw [List.nil_append] at heq
        have hb : x = pyMax key x ys := (List.cons.inj heq).1
        refine ⟨[], y :: ys, ?_, by simp, ?_⟩
        · rw [List.nil_append, ← hb]
        · intro a ha
          rcases List.mem_cons.mp ha with rfl | ha
          · rw [← hb]
          · rcases List.mem_cons.mp ha with rfl | ha
            · rw [← hb]
              omega
            · exact hle a (List.mem_cons_of_mem x ha)
      | cons c l1' =>
        rw [List.cons_append] at heq
        obtain ⟨hc, htail⟩ := List.cons.inj heq
        subst hc
        have hxlt : key x < key (pyMax key x ys) :=
          hstrict x (List.mem_cons_self x l1')
        refine ⟨x :: y :: l1', l2, ?_, ?_, ?_⟩
        · rw [List.cons_append, List.cons_append, ← htail]
        · intro a ha
          rcases List.mem_cons.mp ha with rfl | ha
          · exact hxlt
          · rcases List.mem_cons.mp ha with rfl | ha
            · omega
            · exact hstrict a (List.mem_cons_of_mem x ha)
        · intro a ha
          rcases List.mem_cons.mp ha with rfl | ha
          · exact le_of_lt hxlt
          · rcases List.mem_cons.mp ha with rfl | ha
            · omega
            · exact hle a (List.mem_cons_of_mem x ha)

/-- C3: for a queried key whose non-empty candidate list has no exact
match, the batch summary emits a single approximate-match row for the
candidate with the largest `_prefix_len` mask length, ties broken by
first occurrence in returned order (the selected record is preceded
only by records of strictly smaller mask length and bounds every
candidate's mask length from above); the mask length of a prefix
string is the integer after "/", with a missing or non-numeric mask
parsing as 0. -/
theorem batch_approx_match (cidr : String) (records : List PrefixRec)
    (hne : records ≠ []) (hnex : ∀ r ∈ records, ¬ (r.pfx = cidr)) :
    (∃ best l1 l2,
      batchGroupRows cidr records = [rowApprox cidr best] ∧
      records = l1 ++ best :: l2 ∧
      (∀ r ∈ l1, pfxLen r.pfx < pfxLen best.pfx) ∧
      (∀ r ∈ records, pfxLen r.pfx ≤ pfxLen best.pfx)) ∧
    pfxLen "10.0.0.0/8" = 8 ∧ pfxLen "10.0.0.0" = 0 ∧ pfxLen "10.0.0.0/abc" = 0 := by
  refine ⟨?_, by decide, by decide, by decide⟩
  have hdirect : records.filter (fun r => r.pfx = cidr) = [] := by
    rw [List.filter_eq_nil_iff]
    intro a ha
    simpa using hnex a ha
  have hparents : records.filter (fun r => ¬ (r.pfx = cidr)) = records := by
    rw [List.filter_eq_self]
    intro a ha
    simpa using hnex a ha
  obtain ⟨p, ps, rfl⟩ : ∃ p ps, records = p :: ps := by
    cases records with
    | nil => exact absurd rfl hne
    | cons p ps => exact ⟨p, ps, rfl⟩
  obtain ⟨l1, l2, heq, hstrict, hle⟩ := pyMax_first_max (fun r => pfxLen r.pfx) ps p
  refine ⟨pyMax (fun r => pfxLen r.pfx) p ps, l1, l2, ?_, heq, hstrict, hle⟩
  simp only [batchGroupRows, hdirect, hparents, List.isEmpty_nil]
  rfl

/-- A concrete candidate record for the batch-summary claims. -/
def mkRec (idv : Int) (p : String) (descr : String) : PrefixRec :=
  { id := idv, display := p, pfx := p, description := descr }

/-- Witness for C3 (the spec's own example): key `10.32.16.0/20` with
parents `/8` and `/16` selects the `/16` record. -/
theorem batch_approx_match_witness :
    ([mkRec 1 "10.0.0.0/8" "a", mkRec 2 "10.32.0.0/16" "b"] : List PrefixRec) ≠ [] ∧
    ((∃ best l1 l2,
      batchGroupRows "10.32.16.0/20" [mkRec 1 "10.0.0.0/8" "a", mkRec 2 "10.32.0.0/16" "b"] =
        [rowApprox "10.32.16.0/20" best] ∧
      [mkRec 1 "10.0.0.0/8" "a", mkRec 2 "10.32.0.0/16" "b"] = l1 ++ best :: l2 ∧
      (∀ r ∈ l1, pfxLen r.pfx < pfxLen best.pfx) ∧
      (∀ r ∈ [mkRec 1 "10.0.0.0/8" "a", mkRec 2 "10.32.0.0/16" "b"],
        pfxLen r.pfx ≤ pfxLen best.pfx)) ∧
    pfxLen "10.0.0.0/8" = 8 ∧ pfxLen "10.0.0.0" = 0 ∧ pfxLen "10.0.0.0/abc" = 0) :=
  ⟨List.cons_ne_nil _ _,
   batch_approx_match "10.32.16.0/20" [mkRec 1 "10.0.0.0/8" "a", mkRec 2 "10.32.0.0/16" "b"]
     (List.cons_ne_nil _ _)
     (by
       intro r hr
       rcases List.mem_cons.mp hr with rfl | hr
       · decide
       · rcases List.mem_cons.mp hr with rfl | hr
         · decide
         · exact absurd hr (List.not_mem_nil r))⟩

/-- Counterexample to C4 as stated: when several returned records match
the key exactly, the batch summary does *not* take a single record
(the first); it emits one row per exact match — here two rows, for
both records. -/
theorem batch_exact_counterexample :
    batchGroupRows "10.0.0.0/8"
        [mkRec 1 "10.0.0.0/8" "first", mkRec 2 "10.0.0.0/8" "second"] =
      [rowDirect "10.0.0.0/8" (mkRec 1 "10.0.0.0/8" "first"),
       rowDirect "10.0.0.0/8" (mkRec 2 "10.0.0.0/8" "second")] ∧
    ¬ ∃ r, batchGroupRows "10.0.0.0/8"
        [mkRec 1 "10.0.0.0/8" "first", mkRec 2 "10.0.0.0/8" "second"] =
      [rowDirect "10.0.0.0/8" r] := by
  constructor
  · rfl
  · rintro ⟨r, hr⟩
    have hlen := congrArg List.length hr
    have h2 : (batchGroupRows "10.0.0.0/8"
        [mkRec 1 "10.0.0.0/8" "first", mkRec 2 "10.0.0.0/8" "second"]).length = 2 := rfl
    rw [h2, List.length_singleton] at hlen
    exact absurd hlen (by decide)

/-- C4 (amended): for a queried key with at least one exact candidate,
the batch summary emits exactly one ExactMatch row per record whose
prefix string equals the key, in returned order — in particular, a
single row on that record when exactly one record matches exactly; no
approximate row is emitted. -/
theorem batch_exact_rows (cidr : String) (records : List PrefixRec)
    (hex : ∃ r ∈ records, r.pfx = cidr) :
    batchGroupRows cidr records =
      (records.filter (fun r => r.pfx = cidr)).map (rowDirect cidr) := by
  have hne : (records.filter (fun r => r.pfx = cidr)).isEmpty = false := by
    obtain ⟨r, hr, hpx⟩ := hex
    rw [List.isEmpty_eq_false]
    intro hnil
    have : r ∈ records.filter (fun r => r.pfx = cidr) :=
      List.mem_filter.mpr ⟨hr, by simpa using hpx⟩
    rw [hnil] at this
    exact absurd this (List.not_mem_nil r)
  simp only [batchGroupRows, hne]
  rfl

/-- Witness for C4's amended theorem: one exact match among parents
yields exactly that record's row. -/
theorem batch_exact_rows_witness :
    (∃ r ∈ [mkRec 1 "10.0.0.0/8" "parent", mkRec 2 "10.32.0.0/16" "hit"],
      r.pfx = "10.32.0.0/16") ∧
    batchGroupRows "10.32.0.0/16"
        [mkRec 1 "10.0.0.0/8" "parent", mkRec 2 "10.32.0.0/16" "hit"] =
      (([mkRec 1 "10.0.0.0/8" "parent", mkRec 2 "10.32.0.0/16" "hit"].filter
        (fun r => r.pfx = "10.32.0.0/16")).map (rowDirect "10.32.0.0/16")) :=
  ⟨⟨mkRec 2 "10.32.0.0/16" "hit", by simp, rfl⟩,
   batch_exact_rows "10.32.0.0/16"
     [mkRec 1 "10.0.0.0/8" "parent", mkRec 2 "10.32.0.0/16" "hit"]
     ⟨mkRec 2 "10.32.0.0/16" "hit", by simp, rfl⟩⟩

/-! ## Claim C6: open schema — decode tolerates and preserves extras

The `Prefix` model is declared `BaseModel, extra="allow"`
(models/prefix.py line 30): pydantic validates the declared fields and
stores every unrecognized payload field in the model's extra mapping;
`model_dump` (used by `print_json`, formatters.py lines 53-58) re-emits
the declared fields and then the extras verbatim.  `modelValidate` /
`modelDump` below embed that semantics for the declared `Prefix`
schema. -/

/-- Leftmost lookup of a key among a JSON object's fields. -/
def jLookup (fields : List (String × J)) (k : String) : Option J :=
  (fields.find? (fun kv => kv.1 = k)).map (fun kv => kv.2)

/-- The field names declared by the `Prefix` model
(models/prefix.py lines 33-45). -/
def knownModelKeys : List String :=
  ["id", "display", "prefix", "status", "vrf", "tenant", "site", "vlan", "role",
   "is_pool", "mark_utilized", "description", "tags"]

def asInt : J → Option Int
  | J.num v => some v
  | _ => none

def asStr : J → Option String
  | J.str v => some v
  | _ => none

def asBool : J → Option Bool
  | J.b v => some v
  | _ => none

/-- Validate a nested `{"id": …, "display": …}` reference
(`NestedRef`, models/prefix.py lines 6-10; extras there are dropped —
its own config is pydantic's default `extra="ignore"`). -/
def decodeNestedRef : J → Option NestedRef
  | J.obj fields => do
      let i ← (jLookup fields "id").bind asInt
      let d ← (jLookup fields "display").bind asStr
      pure ⟨i, d⟩
  | _ => none

/-- Validate a `{"value": …, "label": …}` choice field
(`ChoiceRef`, models/prefix.py lines 13-27). -/
def decodeChoiceRef : J → Option ChoiceRef
  | J.obj fields => do
      let v ← (jLookup fields "value").bind asStr
      let l ← (jLookup fields "label").bind asStr
      pure ⟨v, l⟩
  | _ => none

/-- An optional nullable `ChoiceRef` field (`ChoiceRef | None = None`):
absent or `null` gives the default `None`. -/
def decodeOptChoice : Option J → Option (Option ChoiceRef)
  | none => some none
  | some J.null => some none
  | some v => (decodeChoiceRef v).map some

/-- An optional nullable `NestedRef` field (`NestedRef | None = None`). -/
def decodeOptNested : Option J → Option (Option NestedRef)
  | none => some none
  | some J.null => some none
  | some v => (decodeNestedRef v).map some

/-- A `bool` field with a declared default. -/
def decodeBoolD (dflt : Bool) : Option J → Option Bool
  | none => some dflt
  | some v => asBool v

/-- A `str` field with a declared default. -/
def decodeStrD (dflt : String) : Option J → Option String
  | none => some dflt
  | some v => asStr v

/-- The `list[NestedRef] = []` tags field. -/
def decodeTags : Option J → Option (List NestedRef)
  | none => some []
  | some (J.arr vs) => vs.mapM decodeNestedRef
  | some _ => none

/-- Validation of the declared `Prefix` fields, abstracted over the
payload lookup: fails exactly when a required field (`id`, `display`,
`prefix`) is missing or mistyped, or a present optional field is
mistyped — never because of what the lookup returns on keys outside
the declared set, which it is never applied to. -/
def decodeModelFields (f : String → Option J) : Option PrefixRec := do
  let i ← (f "id").bind asInt
  let d ← (f "display").bind asStr
  let p ← (f "prefix").bind asStr
  let st ← decodeOptChoice (f "status")
  let hvrf ← decodeOptNested (f "vrf")
  let ten ← decodeOptNested (f "tenant")
  let hsite ← decodeOptNested (f "site")
  let hvlan ← decodeOptNested (f "vlan")
  let hrole ← decodeOptNested (f "role")
  let pool ← decodeBoolD false (f "is_pool")
  let mu ← decodeBoolD false (f "mark_utilized")
  let descr ← decodeStrD "" (f "description")
  let tags ← decodeTags (f "tags")
  pure { id := i, display := d, pfx := p, status := st, vrf := hvrf, tenant := ten,
         site := hsite, vlan := hvlan, role := hrole, is_pool := pool,
         mark_utilized := mu, description := descr, tags := tags, extra := [] }

/-- `Prefix.model_validate` with `extra="allow"`: validate the declared
fields, and keep every payload field whose key is not declared,
verbatim and in payload order, in the extra mapping. -/
def modelValidate (payload : List (String × J)) : Option PrefixRec :=
  match decodeModelFields (jLookup payload) with
  | none => none
  | some r =>
    some { r with extra := payload.filter (fun kv => !(knownModelKeys.contains kv.1)) }

def dumpNestedRef (r : NestedRef) : J :=
  J.obj [("id", J.num r.id), ("display", J.str r.display)]

def dumpChoiceRef (c : ChoiceRef) : J :=
  J.obj [("value", J.str c.value), ("label", J.str c.label)]

def dumpOpt {α : Type} (f : α → J) : Option α → J
  | none => J.null
  | some v => f v

/-- The declared-field part of `Prefix.model_dump`, in declaration
order. -/
def modelDumpFields (r : PrefixRec) : List (String × J) :=
  [("id", J.num r.id), ("display", J.str r.display), ("prefix", J.str r.pfx),
   ("status", dumpOpt dumpChoiceRef r.status), ("vrf", dumpOpt dumpNestedRef r.vrf),
   ("tenant", dumpOpt dumpNestedRef r.tenant), ("site", dumpOpt dumpNestedRef r.site),
   ("vlan", dumpOpt dumpNestedRef r.vlan), ("role", dumpOpt dumpNestedRef r.role),
   ("is_pool", J.b r.is_pool), ("mark_utilized", J.b r.mark_utilized),
   ("description", J.str r.description), ("tags", J.arr (r.tags.map dumpNestedRef))]

/-- `Prefix.model_dump`: the declared fields, then the stored extra
fields re-emitted unchanged. -/
def modelDump (r : PrefixRec) : List (String × J) :=
  modelDumpFields r ++ r.extra

/-- Filtering a field list by a predicate that holds on every field
keyed `k` does not change the lookup of `k`. -/
theorem jLookup_filter (l : List (String × J)) (p : String × J → Bool) (k : String)
    (h : ∀ x : String × J, x.1 = k → p x = true) :
    jLookup (l.filter p) k = jLookup l k := by
  induction l with
  | nil => rfl
  | cons hd tl ih =>
    by_cases hp : p hd = true
    · rw [List.filter_cons_of_pos hp]
      unfold jLookup
      by_cases hk : hd.1 = k
      · rw [List.find?_cons_of_pos _ (by simpa using hk),
          List.find?_cons_of_pos _ (by simpa using hk)]
      · rw [List.find?_cons_of_neg _ (by simpa using hk),
          List.find?_cons_of_neg _ (by simpa using hk)]
        exact ih
    · rw [List.filter_cons_of_neg hp]
      have hk : ¬ (hd.1 = k) := fun he => hp (h hd he)
      unfold jLookup
      rw [List.find?_cons_of_neg _ (by simpa using hk)]
      exact ih

/-- Lookup skips over a leading block without the key. -/
theorem jLookup_append_of_none (l1 l2 : List (String × J)) (k : String)
    (h : ∀ x ∈ l1, ¬ (x.1 = k)) :
    jLookup (l1 ++ l2) k = jLookup l2 k := by
  unfold jLookup
  rw [List.find?_append]
  have hnone : l1.find? (fun kv => kv.1 = k) = none := by
    rw [List.find?_eq_none]
    intro x hx
    simpa using h x hx
  rw [hnone]
  rfl

/-- Every key the declared-field dump emits is a declared key. -/
theorem modelDumpFields_keys (r : PrefixRec) :
    ∀ x ∈ modelDumpFields r, knownModelKeys.contains x.1 = true := by
  intro x hx
  simp only [modelDumpFields, List.mem_cons, List.not_mem_nil, or_false] at hx
  rcases hx with rfl | rfl | rfl | rfl | rfl | rfl | rfl | rfl | rfl | rfl | rfl | rfl | rfl <;>
    rfl

/-- Looking an undeclared key up in a serialized record reads the extra
mapping. -/
theorem jLookup_modelDump_extra (r : PrefixRec) (k : String)
    (hk : knownModelKeys.contains k = false) :
    jLookup (modelDump r) k = jLookup r.extra k := by
  unfold modelDump
  apply jLookup_append_of_none
  intro x hx he
  have hmem := modelDumpFields_keys r x hx
  rw [he, hk] at hmem
  exact absurd hmem (by simp)

/-- C6: a payload whose declared fields validate continues to validate
in the presence of arbitrary additional unrecognized fields — decoding
never fails solely because of them — the declared fields decode to the
same values, and every unrecognized field is retained and re-emitted
unchanged by `model_dump`: looking any undeclared key up in the
serialization of the decoded record gives exactly the payload's value
for that key. -/
theorem model_open_schema (payload : List (String × J)) (base : PrefixRec)
    (hbase : modelValidate (payload.filter (fun kv => knownModelKeys.contains kv.1)) =
      some base) :
    modelValidate payload =
      some { base with
        extra := payload.filter (fun kv => !(knownModelKeys.contains kv.1)) } ∧
    ∀ k, knownModelKeys.contains k = false →
      jLookup (modelDump { base with
        extra := payload.filter (fun kv => !(knownModelKeys.contains kv.1)) }) k =
      jLookup payload k := by
  have hagree : ∀ k, knownModelKeys.contains k = true →
      jLookup (payload.filter (fun kv => knownModelKeys.contains kv.1)) k =
        jLookup payload k := by
    intro k hk
    apply jLookup_filter
    intro x hx
    rw [hx]
    exact hk
  have hdec : decodeModelFields
      (jLookup (payload.filter (fun kv => knownModelKeys.contains kv.1))) =
      decodeModelFields (jLookup payload) := by
    unfold decodeModelFields
    rw [hagree "id" (by decide), hagree "display" (by decide), hagree "prefix" (by decide),
      hagree "status" (by decide), hagree "vrf" (by decide), hagree "tenant" (by decide),
      hagree "site" (by decide), hagree "vlan" (by decide), hagree "role" (by decide),
      hagree "is_pool" (by decide), hagree "mark_utilized" (by decide),
      hagree "description" (by decide), hagree "tags" (by decide)]
  unfold modelValidate at hbase ⊢
  rw [hdec] at hbase
  cases hdf : decodeModelFields (jLookup payload) with
  | none =>
    rw [hdf] at hbase
    exact absurd hbase (by simp)
  | some r0 =>
    rw [hdf] at hbase
    have hE : (payload.filter (fun kv => knownModelKeys.contains kv.1)).filter
        (fun kv => !(knownModelKeys.contains kv.1)) = [] := by
      rw [List.filter_filter]
      rw [List.filter_eq_nil_iff]
      intro a ha
      simp
    rw [hE, Option.some.injEq] at hbase
    subst hbase
    refine ⟨rfl, ?_⟩
    intro k hk
    rw [jLookup_modelDump_extra _ k hk]
    apply jLookup_filter
    intro x hx
    rw [hx, hk]
    rfl

/-- The C6 witness payload: the three required fields plus an
unrecognized `custom_fields` object. -/
def payload7 : List (String × J) :=
  [("id", J.num 7), ("display", J.str "10.0.0.0/8"),
   ("prefix", J.str "10.0.0.0/8"), ("custom_fields", J.obj [("team", J.str "it")])]

/-- The record the C6 witness payload's declared fields decode to. -/
def baseRec7 : PrefixRec :=
  { id := 7, display := "10.0.0.0/8", pfx := "10.0.0.0/8" }

/-- Witness for C6: the payload with the unrecognized `custom_fields`
object decodes, and the extra key reads back unchanged from the
serialization. -/
theorem model_open_schema_witness :
    modelValidate (payload7.filter (fun kv => knownModelKeys.contains kv.1)) =
      some baseRec7 ∧
    (modelValidate payload7 =
      some { baseRec7 with
        extra := payload7.filter (fun kv => !(knownModelKeys.contains kv.1)) } ∧
    ∀ k, knownModelKeys.contains k = false →
      jLookup (modelDump { baseRec7 with
        extra := payload7.filter (fun kv => !(knownModelKeys.contains kv.1)) }) k =
      jLookup payload7 k) :=
  ⟨rfl, model_open_schema payload7 baseRec7 rfl⟩

end Nbpull
